import Mathlib

/-
  Verification of the diagnostic engine of programmerhumor-lsp (src/main.rs).

  The engine is the function compute_diagnostics, which takes the full text of a
  document and returns an ordered list of diagnostics for four fixed rules
  (codes 2, 3, 4, 5).  The embedding below models the document text as a
  List Char, a line as a List Char, and positions as natural numbers
  (the Rust code casts byte offsets to u32; the model uses character offsets,
  which agree with byte offsets on ASCII text).

  The regex patterns of the source are modelled directly:
    IMPORT_MATCH        (?i)\bimport\b        -> hasWordMatch importWord
    RETURN_MATCH        (?i)\breturn\b        -> hasWordMatch returnWord
    SENTENCE_END_MATCH  \w\.\s|[^.]+[^;]$     -> sentenceMatches (find_iter)
    MARKDOWN_LINK_MATCH \[([^]]+)\]\(([^)]+)\) -> lineLinks (captures_iter)
  The character classes \w and \s are modelled by their ASCII parts.

  The Rust code accumulates link occurrences in a
  HashMap<String, Vec<(String, u32, u32)>> and then iterates found_links.values().
  The iteration order of a std HashMap is unspecified (and randomized per map
  instance); the model makes that order an explicit parameter: the list sigma of
  keys in the order the map yields them.  ValidOrder sigma content states the sole
  guarantee the HashMap gives: sigma enumerates each stored key exactly once.
-/

set_option linter.unusedVariables false

namespace PHLsp

/-- A zero-based (line, character) position, as in the LSP Position type used by the source. -/
structure Position where
  line : Nat
  character : Nat
deriving DecidableEq, Repr

/-- A range made of two positions; the field stop models the LSP field named end (a Lean keyword). -/
structure Range where
  start : Position
  stop : Position
deriving DecidableEq, Repr

/-- An LSP diagnostic as built by the source: a range, a severity (1 = Error), a numeric code
and a message.  The remaining LSP fields are always left at their defaults in the source. -/
structure Diagnostic where
  range : Range
  severity : Nat
  code : Nat
  message : String
deriving DecidableEq, Repr

/-- Translation of make_return_diagnostic: code 3 at point (line_no, 0). -/
def make_return_diagnostic (line_no : Nat) : Diagnostic :=
  { range := { start := { line := line_no, character := 0 },
               stop := { line := line_no, character := 0 } },
    severity := 1,
    code := 3,
    message := "All comments must return a value" }

/-- Translation of make_semicolon_diagnostic: code 4 at point (line_no, char_no). -/
def make_semicolon_diagnostic (line_no : Nat) (char_no : Nat) : Diagnostic :=
  { range := { start := { line := line_no, character := char_no },
               stop := { line := line_no, character := char_no } },
    severity := 1,
    code := 4,
    message := "For comments, every sentence must end with a semicolon" }

/-- Translation of make_import_diagnostic: code 2 at point (0, 0). -/
def make_import_diagnostic : Diagnostic :=
  { range := { start := { line := 0, character := 0 },
               stop := { line := 0, character := 0 } },
    severity := 1,
    code := 2,
    message := "All posts and comments should start with an \"import\" declaration." }

/-- Translation of make_link_rick_roll_diagnostic: code 5 at point (line_no, char_pos). -/
def make_link_rick_roll_diagnostic (line_no : Nat) (char_pos : Nat) : Diagnostic :=
  { range := { start := { line := line_no, character := char_pos },
               stop := { line := line_no, character := char_pos } },
    severity := 1,
    code := 5,
    message := "Every post linking to something must contain a second, identical-looking link to a rick-roll" }

/-- ASCII part of the regex character class backslash-w: letters, digits and underscore. -/
def isWordChar (c : Char) : Bool :=
  c.isAlphanum || c = '_'

/-- ASCII part of the regex character class backslash-s: space, tab, newline,
vertical tab, form feed and carriage return. -/
def isSpaceChar (c : Char) : Bool :=
  c = ' ' || c = '\t' || c = '\n' || c = '\x0b' || c = '\x0c' || c = '\r'

/-- Test that the character at offset j of l, when there is one, is not a word
character.  Offsets outside the line count as non-word. -/
def notWordAt (l : List Char) (j : Nat) : Bool :=
  match l[j]? with
  | some c => !isWordChar c
  | none => true

/-- The regex word boundary condition on the left of offset i in line l:
there is no word character immediately before i. -/
def boundaryBefore (l : List Char) (i : Nat) : Bool :=
  if i = 0 then true else notWordAt l (i - 1)

/-- The regex word boundary condition on the right of offset i in line l:
there is no word character at i. -/
def boundaryAfter (l : List Char) (i : Nat) : Bool :=
  notWordAt l i

/-- Model of Regex::is_match for a pattern of the form (?i)\b w \b, where w is a fixed
lowercase word: some offset i of l carries the word w case-insensitively, delimited by
word boundaries on both sides. -/
def hasWordMatch (w : List Char) (l : List Char) : Bool :=
  (List.range (l.length + 1)).any fun i =>
    ((l.drop i).take w.length).map Char.toLower == w
      && boundaryBefore l i
      && boundaryAfter l (i + w.length)

/-- The word of the IMPORT_MATCH regex. -/
def importWord : List Char := "import".data

/-- The word of the RETURN_MATCH regex. -/
def returnWord : List Char := "return".data

/-- IMPORT_MATCH.is_match(line): the line contains the word import, case-insensitively,
delimited by word boundaries. -/
def importMatch (l : List Char) : Bool :=
  hasWordMatch importWord l

/-- RETURN_MATCH.is_match(line): the line contains the word return, case-insensitively,
delimited by word boundaries. -/
def returnMatch (l : List Char) : Bool :=
  hasWordMatch returnWord l

/-- Declarative reading of the same property, used to state the spec claims: the line
splits as pre ++ mid ++ post where mid spells w lowercased and both seams are
word boundaries. -/
def ContainsWordCI (w : List Char) (l : List Char) : Prop :=
  ∃ pre mid post, l = pre ++ mid ++ post ∧ mid.map Char.toLower = w ∧
    (∀ c, pre.getLast? = some c → isWordChar c = false) ∧
    (∀ c, post.head? = some c → isWordChar c = false)

/-- Shape test of the first alternative of SENTENCE_END_MATCH, the regex \w\.\s, on the
suffix of the line starting at the tried offset: a word character, a period, then a
whitespace character. -/
def altOneShape : List Char → Bool
  | a :: b :: c :: _ => isWordChar a && b = '.' && isSpaceChar c
  | _ => false

/-- First alternative of SENTENCE_END_MATCH tried at offset i of l.  Returns the end
offset of the match, which covers the three characters at i, i+1 and i+2. -/
def sentenceAltOne (l : List Char) (i : Nat) : Option Nat :=
  if altOneShape (l.drop i) then some (i + 3) else none

/-- Second alternative of SENTENCE_END_MATCH, the regex [^.]+[^;]$, tried at offset i of l:
one or more non-period characters followed by one final character that is not a
semicolon, anchored at the end of the line.  The match always extends to the end of
the line, so its end offset is the line length. -/
def sentenceAltTwo (l : List Char) (i : Nat) : Option Nat :=
  if 2 ≤ (l.drop i).length ∧ (l.drop i).dropLast.all (· != '.') ∧ (l.drop i).getLast? ≠ some ';'
  then some l.length
  else none

/-- SENTENCE_END_MATCH tried at offset i, with the leftmost-first preference of the
regex crate: the first alternative wins when it applies. -/
def sentenceMatchAt (l : List Char) (i : Nat) : Option Nat :=
  match sentenceAltOne l i with
  | some e => some e
  | none => sentenceAltTwo l i

/-- The scan loop of Regex::find_iter for SENTENCE_END_MATCH: non-overlapping matches,
scanning left to right and resuming after the end of each match.  The fuel argument
only bounds the recursion; startFrom with fuel l.length + 1 never exhausts it. -/
def sentenceScanFrom (l : List Char) : Nat → Nat → List (Nat × Nat)
  | _, 0 => []
  | i, fuel + 1 =>
    if i < l.length then
      match sentenceMatchAt l i with
      | some e => (i, e) :: sentenceScanFrom l e fuel
      | none => sentenceScanFrom l (i + 1) fuel
    else []

/-- All matches (start, end) of SENTENCE_END_MATCH on a line, as Regex::find_iter yields them. -/
def sentenceMatches (l : List Char) : List (Nat × Nat) :=
  sentenceScanFrom l 0 (l.length + 1)

/-- The diagnostics the rule-4 loop body pushes for one internal line: one code-4
diagnostic per match, at character offset end - 2. -/
def semicolonDiags (line_no : Nat) (l : List Char) : List Diagnostic :=
  (sentenceMatches l).map fun m => make_semicolon_diagnostic line_no (m.2 - 2)

/-- A stored link occurrence, as pushed into found_links: (target url, line, column of
the match start). -/
abbrev LinkOcc := List Char × Nat × Nat

/-- The grouping of link occurrences by anchor text, in first-occurrence key order. -/
abbrev LinkGroups := List (List Char × List LinkOcc)

/-- MARKDOWN_LINK_MATCH, the regex \[([^]]+)\]\(([^)]+)\), tried at offset i of l.
Returns (anchor text, target url, end offset).  Both character classes exclude the
closing delimiter, so the greedy match is the run up to the first closer. -/
def linkMatchAt (l : List Char) (i : Nat) : Option (List Char × List Char × Nat) :=
  match l.drop i with
  | '[' :: rest =>
    let anchor := rest.takeWhile (· != ']')
    if anchor.isEmpty then none
    else
      match rest.drop anchor.length with
      | ']' :: '(' :: rest2 =>
        let url := rest2.takeWhile (· != ')')
        if url.isEmpty then none
        else
          match rest2.drop url.length with
          | ')' :: _ => some (anchor, url, i + anchor.length + url.length + 4)
          | _ => none
      | _ => none
  | _ => none

/-- The scan loop of Regex::captures_iter for MARKDOWN_LINK_MATCH: non-overlapping
matches left to right, each reported as (anchor, url, match start offset). -/
def linkScanFrom (l : List Char) : Nat → Nat → List (List Char × List Char × Nat)
  | _, 0 => []
  | i, fuel + 1 =>
    if i < l.length then
      match linkMatchAt l i with
      | some m => (m.1, m.2.1, i) :: linkScanFrom l m.2.2 fuel
      | none => linkScanFrom l (i + 1) fuel
    else []

/-- All markdown link captures on one line, as captures_iter yields them. -/
def lineLinks (l : List Char) : List (List Char × List Char × Nat) :=
  linkScanFrom l 0 (l.length + 1)

/-- found_links.entry(anchor).or_default().push(occ): append the occurrence to the
group of its anchor, creating the group at the end on first occurrence. -/
def insertLink (groups : LinkGroups) (anchor : List Char) (occ : LinkOcc) : LinkGroups :=
  match groups with
  | [] => [(anchor, [occ])]
  | (k, v) :: gs =>
    if k = anchor then (k, v ++ [occ]) :: gs else (k, v) :: insertLink gs anchor occ

/-- One iteration of the rule-5 capture loop over a line at index line_no. -/
def insertLineLinks (groups : LinkGroups) (line_no : Nat) (l : List Char) : LinkGroups :=
  (lineLinks l).foldl (fun g m => insertLink g m.1 (m.2.1, line_no, m.2.2)) groups

/-- The link collection over the lines handed to the while loop (every line after the
first), numbering them from the given first line number. -/
def collectLinks : Nat → List (List Char) → LinkGroups → LinkGroups
  | _, [], acc => acc
  | ln, l :: ls, acc => collectLinks (ln + 1) ls (insertLineLinks acc ln l)

/-- The canonical rick-roll url of the source. -/
def rickRollUrl : List Char := "https://www.youtube.com/watch?v=dQw4w9WgXcQ".data

/-- Lookup of a group by its anchor key. -/
def lookupGroup (groups : LinkGroups) (k : List Char) : Option (List LinkOcc) :=
  match groups with
  | [] => none
  | (a, v) :: gs => if a = k then some v else lookupGroup gs k

/-- The diagnostics emitted for one anchor group: none when some occurrence targets the
canonical url, otherwise one code-5 diagnostic per occurrence, in insertion order. -/
def groupDiags (occs : List LinkOcc) : List Diagnostic :=
  if occs.any (fun o => o.1 == rickRollUrl) then []
  else occs.map fun o => make_link_rick_roll_diagnostic o.2.1 o.2.2

/-- The final loop over found_links.values(): the groups are visited in the key order
sigma the HashMap happens to yield. -/
def rickRollDiags (groups : LinkGroups) : List (List Char) → List Diagnostic
  | [] => []
  | k :: sigma =>
    (match lookupGroup groups k with
     | some occs => groupDiags occs
     | none => []) ++ rickRollDiags groups sigma

/-- One step of the split of the document text at newline characters. -/
def splitAllNl : List Char → List (List Char)
  | [] => [[]]
  | c :: cs =>
    match splitAllNl cs with
    | [] => [[c]]
    | p :: ps => if c = '\n' then [] :: p :: ps else (c :: p) :: ps

/-- Removal of one trailing carriage return, as str::lines does on lines that were
terminated by a newline. -/
def stripCR (l : List Char) : List Char :=
  if l.getLast? = some '\r' then l.dropLast else l

/-- Model of Rust str::lines(): split at newlines, drop a final empty segment (so a
trailing newline adds no line), and strip one carriage return from every line that
was terminated by a newline. -/
def rustLines (s : List Char) : List (List Char) :=
  let parts := splitAllNl s
  if parts.getLast? = some ([] : List Char)
  then parts.dropLast.map stripCR
  else parts.dropLast.map stripCR ++ parts.getLast?.toList

/-- The while loop of compute_diagnostics over the lines after the first, carrying the
running line number: internal lines get the rule-4 treatment, the last line the
rule-3 treatment. -/
def loopDiags : Nat → List (List Char) → List Diagnostic
  | _, [] => []
  | ln, l :: ls =>
    if ls.isEmpty then
      (if returnMatch l then [] else [make_return_diagnostic ln])
    else
      semicolonDiags ln l ++ loopDiags (ln + 1) ls

/-- Translation of compute_diagnostics.  The parameter sigma is the key order in which
found_links.values() yields the anchor groups; everything else is deterministic. -/
def compute_diagnostics (sigma : List (List Char)) (content : List Char) : List Diagnostic :=
  match rustLines content with
  | [] => []
  | first :: rest =>
    (if importMatch first then [] else [make_import_diagnostic])
      ++ (if rest.isEmpty then [make_return_diagnostic 0] else [])
      ++ loopDiags 1 rest
      ++ rickRollDiags (collectLinks 1 rest []) sigma

/-- The anchor groups actually collected by the source for a document: links are only
gathered on the lines after the first, in first-occurrence key order. -/
def linkGroups (content : List Char) : LinkGroups :=
  match rustLines content with
  | [] => []
  | _ :: rest => collectLinks 1 rest []

/-- The one guarantee HashMap::values() gives about the order sigma: it enumerates each
stored key exactly once. -/
def ValidOrder (sigma : List (List Char)) (content : List Char) : Prop :=
  sigma.Perm ((linkGroups content).map Prod.fst)

instance (sigma : List (List Char)) (content : List Char) : Decidable (ValidOrder sigma content) :=
  List.decidablePerm sigma ((linkGroups content).map Prod.fst)

/-- Spec-side definition for claim C1: the anchor groups obtained when links are
gathered on every line of the document, the first line included. -/
def allLinkGroups (content : List Char) : LinkGroups :=
  collectLinks 0 (rustLines content) []

/-! Basic unfolding and field lemmas. -/

lemma compute_eq (sigma : List (List Char)) (content first : List Char)
    (rest : List (List Char)) (h : rustLines content = first :: rest) :
    compute_diagnostics sigma content =
      (if importMatch first then [] else [make_import_diagnostic])
        ++ (if rest.isEmpty then [make_return_diagnostic 0] else [])
        ++ loopDiags 1 rest
        ++ rickRollDiags (collectLinks 1 rest []) sigma := by
  unfold compute_diagnostics
  rw [h]

lemma linkGroups_eq (content first : List Char) (rest : List (List Char))
    (h : rustLines content = first :: rest) :
    linkGroups content = collectLinks 1 rest [] := by
  unfold linkGroups
  rw [h]

@[simp] lemma make_import_code : make_import_diagnostic.code = 2 := rfl

@[simp] lemma make_return_code (n : Nat) : (make_return_diagnostic n).code = 3 := rfl

@[simp] lemma make_semicolon_code (n c : Nat) : (make_semicolon_diagnostic n c).code = 4 := rfl

@[simp] lemma make_link_code (n c : Nat) : (make_link_rick_roll_diagnostic n c).code = 5 := rfl

@[simp] lemma make_semicolon_line (n c : Nat) :
    (make_semicolon_diagnostic n c).range.start.line = n := rfl

@[simp] lemma make_return_line (n : Nat) :
    (make_return_diagnostic n).range.start.line = n := rfl

@[simp] lemma make_import_line : make_import_diagnostic.range.start.line = 0 := rfl

@[simp] lemma make_link_line (n c : Nat) :
    (make_link_rick_roll_diagnostic n c).range.start.line = n := rfl

lemma rickRollDiags_nil_groups (sigma : List (List Char)) :
    rickRollDiags [] sigma = [] := by
  induction sigma with
  | nil => rfl
  | cons k t ih => simp [rickRollDiags, lookupGroup, ih]

/-! Bounds for the sentence-termination matches. -/

lemma altOneShape_length {xs : List Char} (h : altOneShape xs = true) : 3 ≤ xs.length := by
  cases xs with
  | nil => simp [altOneShape] at h
  | cons a xs1 =>
    cases xs1 with
    | nil => simp [altOneShape] at h
    | cons b xs2 =>
      cases xs2 with
      | nil => simp [altOneShape] at h
      | cons c t => simp

lemma sentenceAltOne_bounds {l : List Char} {i e : Nat}
    (h : sentenceAltOne l i = some e) : e = i + 3 ∧ i + 3 ≤ l.length := by
  unfold sentenceAltOne at h
  split_ifs at h with hc
  · cases h
    have hlen : (l.drop i).length = l.length - i := List.length_drop i l
    have h3 := altOneShape_length hc
    exact ⟨rfl, by omega⟩

lemma sentenceAltTwo_bounds {l : List Char} {i e : Nat}
    (h : sentenceAltTwo l i = some e) : e = l.length ∧ i + 2 ≤ l.length := by
  unfold sentenceAltTwo at h
  split_ifs at h with hc
  · cases h
    have hlen : (l.drop i).length = l.length - i := List.length_drop i l
    have := hc.1
    exact ⟨rfl, by omega⟩

lemma sentenceMatchAt_bounds {l : List Char} {i e : Nat}
    (h : sentenceMatchAt l i = some e) : i + 2 ≤ e ∧ e ≤ l.length := by
  unfold sentenceMatchAt at h
  cases h1 : sentenceAltOne l i with
  | some e1 =>
    rw [h1] at h
    cases h
    obtain ⟨he, hb⟩ := sentenceAltOne_bounds h1
    omega
  | none =>
    rw [h1] at h
    obtain ⟨he, hb⟩ := sentenceAltTwo_bounds h
    omega

lemma sentenceScanFrom_bounds {l : List Char} :
    ∀ (fuel i : Nat) (m : Nat × Nat), m ∈ sentenceScanFrom l i fuel →
      i ≤ m.1 ∧ m.1 + 2 ≤ m.2 ∧ m.2 ≤ l.length := by
  intro fuel
  induction fuel with
  | zero => intro i m hm; simp [sentenceScanFrom] at hm
  | succ n ih =>
    intro i m hm
    unfold sentenceScanFrom at hm
    split at hm
    · cases hma : sentenceMatchAt l i with
      | some e =>
        rw [hma] at hm
        rcases List.mem_cons.mp hm with h | h
        · subst h
          obtain ⟨h1, h2⟩ := sentenceMatchAt_bounds hma
          exact ⟨Nat.le_refl _, h1, h2⟩
        · obtain ⟨h1, h2, h3⟩ := ih e m h
          obtain ⟨h4, _⟩ := sentenceMatchAt_bounds hma
          exact ⟨by omega, h2, h3⟩
      | none =>
        rw [hma] at hm
        obtain ⟨h1, h2, h3⟩ := ih (i + 1) m hm
        exact ⟨by omega, h2, h3⟩
    · simp at hm

lemma sentenceMatches_bounds {l : List Char} {m : Nat × Nat}
    (h : m ∈ sentenceMatches l) : 2 ≤ m.2 ∧ m.2 ≤ l.length := by
  obtain ⟨h1, h2, h3⟩ := sentenceScanFrom_bounds (l.length + 1) 0 m h
  exact ⟨by omega, h3⟩

lemma sentenceMatches_short {l : List Char} (h : l.length ≤ 1) :
    sentenceMatches l = [] := by
  rcases l with _ | ⟨c, _ | ⟨c2, t⟩⟩
  · rfl
  · rfl
  · simp at h

/-! Structure of the diagnostics produced by the while loop. -/

lemma loopDiags_cons (ln : Nat) (l : List Char) (ls : List (List Char)) :
    loopDiags ln (l :: ls) =
      if ls.isEmpty then
        (if returnMatch l then [] else [make_return_diagnostic ln])
      else
        semicolonDiags ln l ++ loopDiags (ln + 1) ls := rfl

lemma mem_semicolonDiags {d : Diagnostic} {ln : Nat} {l : List Char} :
    d ∈ semicolonDiags ln l ↔
      ∃ m ∈ sentenceMatches l, d = make_semicolon_diagnostic ln (m.2 - 2) := by
  simp only [semicolonDiags, List.mem_map]
  constructor
  · rintro ⟨m, hm, rfl⟩; exact ⟨m, hm, rfl⟩
  · rintro ⟨m, hm, rfl⟩; exact ⟨m, hm, rfl⟩

lemma loopDiags_mem {d : Diagnostic} :
    ∀ (ls : List (List Char)) (ln : Nat), d ∈ loopDiags ln ls →
      (∃ k lk, ls[k]? = some lk ∧ k + 1 < ls.length ∧ d ∈ semicolonDiags (ln + k) lk) ∨
      (∃ last, ls.getLast? = some last ∧ returnMatch last = false ∧
        d = make_return_diagnostic (ln + (ls.length - 1))) := by
  intro ls
  induction ls with
  | nil => intro ln h; simp [loopDiags] at h
  | cons l ls ih =>
    intro ln h
    rw [loopDiags_cons] at h
    by_cases hne : ls = []
    · subst hne
      rw [if_pos (by simp)] at h
      split_ifs at h with hr
      · simp at h
      · simp only [List.mem_singleton] at h
        subst h
        exact Or.inr ⟨l, by simp, by simpa using hr, by simp⟩
    · rw [if_neg (by simpa [List.isEmpty_iff] using hne)] at h
      rcases List.mem_append.mp h with h1 | h1
      · exact Or.inl ⟨0, l, by simp, by
          have := List.length_pos.mpr hne
          simp only [List.length_cons]
          omega, by simpa using h1⟩
      · rcases ih (ln + 1) h1 with ⟨k, lk, hk, hb, hmem⟩ | ⟨last, hl, hr, hd⟩
        · refine Or.inl ⟨k + 1, lk, by simpa using hk, by simp only [List.length_cons]; omega, ?_⟩
          have harith : ln + (k + 1) = ln + 1 + k := by omega
          rw [harith]
          exact hmem
        · refine Or.inr ⟨last, ?_, hr, ?_⟩
          · rcases ls with _ | ⟨l2, ls2⟩
            · exact absurd rfl hne
            · simpa using hl
          · have hlen : ls.length ≥ 1 := List.length_pos.mpr hne
            have harith : ln + (ls.length + 1 - 1) = ln + 1 + (ls.length - 1) := by omega
            simp only [List.length_cons, harith]
            exact hd

lemma loopDiags_code {d : Diagnostic} {ls : List (List Char)} {ln : Nat}
    (h : d ∈ loopDiags ln ls) : d.code = 3 ∨ d.code = 4 := by
  rcases loopDiags_mem ls ln h with ⟨k, lk, _, _, hmem⟩ | ⟨last, _, _, hd⟩
  · rcases mem_semicolonDiags.mp hmem with ⟨m, _, rfl⟩
    exact Or.inr rfl
  · subst hd; exact Or.inl rfl

lemma loopDiags_return_mem :
    ∀ (ls : List (List Char)) (ln : Nat) (last : List Char), ls.getLast? = some last →
      (make_return_diagnostic (ln + (ls.length - 1)) ∈ loopDiags ln ls ↔
        returnMatch last = false) := by
  intro ls
  induction ls with
  | nil => intro ln last h; simp at h
  | cons l ls ih =>
    intro ln last h
    rw [loopDiags_cons]
    by_cases hne : ls = []
    · subst hne
      simp only [List.getLast?_singleton, Option.some.injEq] at h
      subst h
      simp only [List.isEmpty_nil, if_true, List.length_cons, List.length_nil]
      cases hr : returnMatch l
      · simp [hr]
      · simp [hr]
    · have he : (l :: ls).tail.isEmpty = false := by
        simpa [List.isEmpty_iff] using hne
      rw [if_neg (by simpa [List.isEmpty_iff] using hne)]
      have hlast : ls.getLast? = some last := by
        rcases ls with _ | ⟨l2, ls2⟩
        · exact absurd rfl hne
        · simpa using h
      have hlen : ls.length ≥ 1 := List.length_pos.mpr hne
      have harith : ln + ((l :: ls).length - 1) = ln + 1 + (ls.length - 1) := by
        simp only [List.length_cons]; omega
      rw [harith]
      constructor
      · intro hmem
        rcases List.mem_append.mp hmem with h1 | h1
        · rcases mem_semicolonDiags.mp h1 with ⟨m, _, habs⟩
          exact absurd (congrArg Diagnostic.code habs) (by simp)
        · exact (ih (ln + 1) last hlast).mp h1
      · intro hr
        exact List.mem_append.mpr (Or.inr ((ih (ln + 1) last hlast).mpr hr))

/-! Equivalence of the word-boundary scan with its declarative reading. -/

lemma notWordAt_iff {l : List Char} {j : Nat} :
    notWordAt l j = true ↔ ∀ c, l[j]? = some c → isWordChar c = false := by
  unfold notWordAt
  cases h : l[j]? with
  | none => simp
  | some c => simp

lemma hasWordMatch_iff {w l : List Char} (hw : w ≠ []) :
    hasWordMatch w l = true ↔ ContainsWordCI w l := by
  have hwlen : 1 ≤ w.length := List.length_pos.mpr hw
  unfold hasWordMatch ContainsWordCI
  rw [List.any_eq_true]
  constructor
  · rintro ⟨i, hi, hcond⟩
    rw [List.mem_range] at hi
    rw [Bool.and_eq_true, Bool.and_eq_true] at hcond
    obtain ⟨⟨h1, h2⟩, h3⟩ := hcond
    have h1' : ((l.drop i).take w.length).map Char.toLower = w := by
      simpa using h1
    have hmidlen : ((l.drop i).take w.length).length = w.length := by
      have := congrArg List.length h1'
      rwa [List.length_map] at this
    have hbound : i + w.length ≤ l.length := by
      rw [List.length_take, List.length_drop] at hmidlen
      have hle := Nat.min_le_right w.length (l.length - i)
      rw [hmidlen] at hle
      omega
    refine ⟨l.take i, (l.drop i).take w.length, l.drop (i + w.length), ?_, h1', ?_, ?_⟩
    · have hd : l.drop (i + w.length) = (l.drop i).drop w.length := by
        rw [List.drop_drop]
      rw [hd, List.append_assoc, List.take_append_drop, List.take_append_drop]
    · intro c hc
      cases i with
      | zero => simp at hc
      | succ j =>
        unfold boundaryBefore at h2
        rw [if_neg (by omega)] at h2
        have h2' := notWordAt_iff.mp h2
        have htake : (l.take (j + 1)).getLast? = l[j]? := by
          rw [List.getLast?_eq_getElem?]
          have hlen2 : (l.take (j + 1)).length = j + 1 := by
            rw [List.length_take]
            omega
          rw [hlen2]
          simp only [Nat.add_sub_cancel]
          exact List.getElem?_take_of_succ
        rw [htake] at hc
        exact h2' c (by simpa using hc)
    · intro c hc
      unfold boundaryAfter at h3
      have h3' := notWordAt_iff.mp h3
      have hhead : (l.drop (i + w.length)).head? = l[i + w.length]? := by
        rw [List.head?_eq_getElem?, List.getElem?_drop, Nat.add_zero]
      rw [hhead] at hc
      exact h3' c hc
  · rintro ⟨pre, mid, post, rfl, hmap, hpre, hpost⟩
    have hlenmid : mid.length = w.length := by
      have := congrArg List.length hmap
      rwa [List.length_map] at this
    refine ⟨pre.length, ?_, ?_⟩
    · rw [List.mem_range]
      simp only [List.append_assoc, List.length_append]
      omega
    · have hmid : (((pre ++ mid ++ post).drop pre.length).take w.length) = mid := by
        rw [List.append_assoc, List.drop_left, ← hlenmid, List.take_left]
      rw [Bool.and_eq_true, Bool.and_eq_true]
      refine ⟨⟨?_, ?_⟩, ?_⟩
      · rw [hmid, hmap]
        simp
      · unfold boundaryBefore
        rcases hp : pre with _ | ⟨p, ps⟩
        · simp
        · rw [← hp]
          have hplen : pre.length = ps.length + 1 := by rw [hp]; rfl
          rw [if_neg (by omega)]
          rw [notWordAt_iff]
          intro c hc
          rcases hgl : pre.getLast? with _ | c'
          · rw [List.getLast?_eq_none_iff] at hgl
            rw [hgl] at hp
            cases hp
          · have hidx : (pre ++ mid ++ post)[pre.length - 1]? = some c' := by
              rw [List.append_assoc, List.getElem?_append_left (by omega)]
              rw [List.getLast?_eq_getElem?] at hgl
              exact hgl
            rw [hidx] at hc
            cases hc
            exact hpre c hgl
      · unfold boundaryAfter
        rw [notWordAt_iff]
        intro c hc
        have hidx : (pre ++ mid ++ post)[pre.length + w.length]? = post.head? := by
          rw [← hlenmid, ← List.length_append, List.getElem?_append_right (Nat.le_refl _),
            Nat.sub_self, ← List.head?_eq_getElem?]
        rw [hidx] at hc
        exact hpost c hc

/-! Structure of the rick-roll diagnostics. -/

lemma mem_groupDiags {d : Diagnostic} {occs : List LinkOcc} :
    d ∈ groupDiags occs ↔
      (occs.any (fun o => o.1 == rickRollUrl) = false ∧
        ∃ o ∈ occs, d = make_link_rick_roll_diagnostic o.2.1 o.2.2) := by
  unfold groupDiags
  split_ifs with h
  · simp [h]
  · rw [Bool.not_eq_true] at h
    simp only [h, true_and, List.mem_map]
    constructor
    · rintro ⟨o, ho, rfl⟩; exact ⟨o, ho, rfl⟩
    · rintro ⟨o, ho, rfl⟩; exact ⟨o, ho, rfl⟩

lemma mem_rickRollDiags {d : Diagnostic} {g : LinkGroups} :
    ∀ sigma, d ∈ rickRollDiags g sigma ↔
      ∃ k ∈ sigma, ∃ occs, lookupGroup g k = some occs ∧ d ∈ groupDiags occs := by
  intro sigma
  induction sigma with
  | nil => simp [rickRollDiags]
  | cons k t ih =>
    rw [rickRollDiags, List.mem_append, ih]
    constructor
    · rintro (h | ⟨k', hk', occs, hocc, hmem⟩)
      · cases hl : lookupGroup g k with
        | none => rw [hl] at h; simp at h
        | some occs => rw [hl] at h; exact ⟨k, by simp, occs, hl, h⟩
      · exact ⟨k', by simp [hk'], occs, hocc, hmem⟩
    · rintro ⟨k', hk', occs, hocc, hmem⟩
      rcases List.mem_cons.mp hk' with rfl | hk'
      · exact Or.inl (by rw [hocc]; exact hmem)
      · exact Or.inr ⟨k', hk', occs, hocc, hmem⟩

lemma rickRollDiags_code {d : Diagnostic} {g : LinkGroups} {sigma : List (List Char)}
    (h : d ∈ rickRollDiags g sigma) : d.code = 5 := by
  rcases (mem_rickRollDiags sigma).mp h with ⟨k, _, occs, _, hmem⟩
  rcases (mem_groupDiags.mp hmem).2 with ⟨o, _, rfl⟩
  rfl

lemma compute_mem_iff (sigma : List (List Char)) (content first : List Char)
    (rest : List (List Char)) (h1 : rustLines content = first :: rest) (d : Diagnostic) :
    d ∈ compute_diagnostics sigma content ↔
      (d ∈ (if importMatch first then ([] : List Diagnostic) else [make_import_diagnostic]) ∨
       d ∈ (if rest.isEmpty then [make_return_diagnostic 0] else ([] : List Diagnostic)) ∨
       d ∈ loopDiags 1 rest ∨
       d ∈ rickRollDiags (collectLinks 1 rest []) sigma) := by
  rw [compute_eq sigma content first rest h1]
  simp [List.mem_append, or_assoc]

/-! Claim theorems, first batch. -/

/-- C8: the empty document (zero lines) yields the empty diagnostic list, and for every
document text and every key order the evaluation returns a (possibly empty) diagnostic
list without signalling any error: compute_diagnostics is a total function. -/
theorem c8_empty_and_total :
    (∀ sigma, compute_diagnostics sigma [] = []) ∧
    (∀ sigma content, ∃ ds, compute_diagnostics sigma content = ds) :=
  ⟨fun _ => rfl, fun _ _ => ⟨_, rfl⟩⟩

/-- C4: a document with exactly one line always yields exactly one code-3 diagnostic,
located at (0, 0), and no code-4 diagnostics, whatever the content of that line. -/
theorem c4_single_line_always_missing_return (sigma : List (List Char))
    (content l : List Char) (h : rustLines content = [l]) :
    (compute_diagnostics sigma content).countP (fun d => d.code == 3) = 1 ∧
    (∀ d ∈ compute_diagnostics sigma content, d.code = 3 → d = make_return_diagnostic 0) ∧
    (compute_diagnostics sigma content).countP (fun d => d.code == 4) = 0 := by
  rw [compute_eq sigma content l [] h]
  simp only [collectLinks]
  rw [rickRollDiags_nil_groups]
  cases him : importMatch l <;> simp [him] <;> decide

/-- C4 witness: the single-line document consisting of the word return is still flagged
as missing its return value. -/
theorem c4_witness :
    (compute_diagnostics [] ("return".data)).countP (fun d => d.code == 3) = 1 :=
  (c4_single_line_always_missing_return [] ("return".data) ("return".data) (by decide)).1

/-- C1 counterexample: the claim quantifies over link occurrences on any line, the first
included, but the code never collects links from the first line.  On the document
consisting of the first line import [x](https://a.com) and the last line return, the
spec-side scan of every line finds the anchor group x with the single occurrence
("https://a.com", 0, 7) and no canonical url in the group, so the claim demands a
code-5 diagnostic at (0, 7); the code emits no diagnostics at all. -/
theorem c1_counterexample :
    ValidOrder [] ("import [x](https://a.com)\nreturn".data) ∧
    lookupGroup (allLinkGroups ("import [x](https://a.com)\nreturn".data)) ("x".data)
      = some [("https://a.com".data, 0, 7)] ∧
    ("https://a.com".data ≠ rickRollUrl) ∧
    compute_diagnostics [] ("import [x](https://a.com)\nreturn".data) = [] := by
  decide

/-- C2 (code bug): the groups are read back from found_links.values(), and the HashMap
may yield the keys in any order.  On the document below, the order that lists anchor b
before anchor a is a valid HashMap enumeration, and under it the code-5 diagnostics of
the group with first occurrence on line 2 precede those of the group with first
occurrence on line 1, violating first-occurrence order. -/
theorem c2_group_order_not_first_occurrence :
    ValidOrder ["b".data, "a".data]
      ("import\n[a](https://a.com)\n[b](https://b.com)\nreturn".data) ∧
    (compute_diagnostics ["b".data, "a".data]
        ("import\n[a](https://a.com)\n[b](https://b.com)\nreturn".data)).filter
        (fun d => d.code == 5)
      = [make_link_rick_roll_diagnostic 2 0, make_link_rick_roll_diagnostic 1 0] := by
  decide

/-- C3 (code bug): two evaluations of the same text that differ only in the unspecified
HashMap key order (both orders being valid enumerations of the stored keys) return
different diagnostic lists, so re-evaluating unchanged text need not reproduce the
same output. -/
theorem c3_reevaluation_not_identical :
    ValidOrder ["a".data, "b".data]
      ("import\n[a](https://a.com)\n[b](https://b.com)\nreturn".data) ∧
    ValidOrder ["b".data, "a".data]
      ("import\n[a](https://a.com)\n[b](https://b.com)\nreturn".data) ∧
    compute_diagnostics ["a".data, "b".data]
        ("import\n[a](https://a.com)\n[b](https://b.com)\nreturn".data)
      ≠ compute_diagnostics ["b".data, "a".data]
        ("import\n[a](https://a.com)\n[b](https://b.com)\nreturn".data) := by
  decide

/-- C5: on any document with at least one line, a code-2 diagnostic is emitted iff the
first line does not contain the word import as a case-insensitive whole word; every
code-2 diagnostic is the import diagnostic at (0, 0); when emitted it is the first
diagnostic of the output; and it appears at most once. -/
theorem c5_import_rule (sigma : List (List Char)) (content first : List Char)
    (rest : List (List Char)) (h1 : rustLines content = first :: rest) :
    ((∃ d ∈ compute_diagnostics sigma content, d.code = 2) ↔
      ¬ ContainsWordCI importWord first) ∧
    (∀ d ∈ compute_diagnostics sigma content, d.code = 2 → d = make_import_diagnostic) ∧
    (¬ ContainsWordCI importWord first →
      (compute_diagnostics sigma content).head? = some make_import_diagnostic) ∧
    (compute_diagnostics sigma content).countP (fun d => d.code == 2) ≤ 1 := by
  have himp : importMatch first = true ↔ ContainsWordCI importWord first :=
    hasWordMatch_iff (by decide)
  have hmem := compute_mem_iff sigma content first rest h1
  have hc2 : ∀ d : Diagnostic,
      d ∈ (if rest.isEmpty then [make_return_diagnostic 0] else ([] : List Diagnostic)) →
        d.code = 3 := by
    intro d hd
    split_ifs at hd with h
    · simp only [List.mem_singleton] at hd; subst hd; rfl
    · simp at hd
  refine ⟨⟨?_, ?_⟩, ?_, ?_, ?_⟩
  · rintro ⟨d, hd, hcode⟩
    rcases (hmem d).mp hd with h | h | h | h
    · split_ifs at h with hm
      · simp at h
      · intro hcontra
        exact hm (himp.mpr hcontra)
    · have := hc2 d h; omega
    · rcases loopDiags_code h with h3 | h4 <;> omega
    · have := rickRollDiags_code h; omega
  · intro hnc
    have hm : importMatch first = false := by
      cases hmf : importMatch first
      · rfl
      · exact absurd (himp.mp hmf) hnc
    refine ⟨make_import_diagnostic, (hmem _).mpr (Or.inl ?_), rfl⟩
    rw [if_neg (by simp [hm])]
    simp
  · intro d hd hcode
    rcases (hmem d).mp hd with h | h | h | h
    · split_ifs at h with hm
      · simp at h
      · simpa using h
    · have := hc2 d h; omega
    · rcases loopDiags_code h with h3 | h4 <;> omega
    · have := rickRollDiags_code h; omega
  · intro hnc
    have hm : importMatch first = false := by
      cases hmf : importMatch first
      · rfl
      · exact absurd (himp.mp hmf) hnc
    rw [compute_eq sigma content first rest h1, hm]
    simp
  · rw [compute_eq sigma content first rest h1]
    rw [List.countP_append, List.countP_append, List.countP_append]
    have z2 : (if rest.isEmpty then [make_return_diagnostic 0]
        else ([] : List Diagnostic)).countP (fun d => d.code == 2) = 0 := by
      rw [List.countP_eq_zero]
      intro d hd
      have := hc2 d hd
      simp [this]
    have z3 : (loopDiags 1 rest).countP (fun d => d.code == 2) = 0 := by
      rw [List.countP_eq_zero]
      intro d hd
      rcases loopDiags_code hd with h3 | h3 <;> simp [h3]
    have z4 : (rickRollDiags (collectLinks 1 rest []) sigma).countP
        (fun d => d.code == 2) = 0 := by
      rw [List.countP_eq_zero]
      intro d hd
      have := rickRollDiags_code hd
      simp [this]
    have z1 : (if importMatch first then ([] : List Diagnostic)
        else [make_import_diagnostic]).countP (fun d => d.code == 2) ≤ 1 := by
      split_ifs <;> simp
    omega

/-- C5 witness: a first line consisting of the word important alone does not contain
the word import as a whole word, as the rule emitting its diagnostic there shows. -/
theorem c5_witness : ¬ ContainsWordCI importWord ("important".data) :=
  (c5_import_rule [] ("important".data) ("important".data) [] (by decide)).1.mp
    (by decide)

/-- C6: on a document with at least two lines, the code-3 diagnostic at
(last line index, 0) is emitted iff the last line does not contain the word return as a
case-insensitive whole word, and every code-3 diagnostic of the output is that one
diagnostic, so no other line is flagged. -/
theorem c6_return_rule (sigma : List (List Char)) (content first lst : List Char)
    (rest : List (List Char)) (h1 : rustLines content = first :: rest)
    (h2 : rest.getLast? = some lst) :
    ((make_return_diagnostic rest.length ∈ compute_diagnostics sigma content) ↔
      ¬ ContainsWordCI returnWord lst) ∧
    (∀ d ∈ compute_diagnostics sigma content, d.code = 3 →
      d = make_return_diagnostic rest.length) := by
  have hne : rest ≠ [] := by
    intro h; rw [h] at h2; simp at h2
  have hret : returnMatch lst = true ↔ ContainsWordCI returnWord lst :=
    hasWordMatch_iff (by decide)
  have hmem := compute_mem_iff sigma content first rest h1
  have hlen : rest.length ≥ 1 := List.length_pos.mpr hne
  have hloop := loopDiags_return_mem rest 1 lst h2
  have harith : 1 + (rest.length - 1) = rest.length := by omega
  rw [harith] at hloop
  constructor
  · constructor
    · intro hd
      rcases (hmem _).mp hd with h | h | h | h
      · split_ifs at h with hm
        · simp at h
        · simp only [List.mem_singleton] at h
          exact absurd (congrArg Diagnostic.code h) (by simp)
      · rw [if_neg (by simpa [List.isEmpty_iff] using hne)] at h
        simp at h
      · intro hc
        have hf := hloop.mp h
        have ht : returnMatch lst = true := hret.mpr hc
        rw [ht] at hf
        cases hf
      · exact absurd (rickRollDiags_code h) (by simp)
    · intro hnc
      have hf : returnMatch lst = false := by
        cases hr : returnMatch lst
        · rfl
        · exact absurd (hret.mp hr) hnc
      exact (hmem _).mpr (Or.inr (Or.inr (Or.inl (hloop.mpr hf))))
  · intro d hd hcode
    rcases (hmem d).mp hd with h | h | h | h
    · split_ifs at h with hm
      · simp at h
      · simp only [List.mem_singleton] at h
        rw [h] at hcode
        simp at hcode
    · rw [if_neg (by simpa [List.isEmpty_iff] using hne)] at h
      simp at h
    · rcases loopDiags_mem rest 1 h with ⟨k, lk, _, _, hsemi⟩ | ⟨lst', hl', hr', hd'⟩
      · rcases mem_semicolonDiags.mp hsemi with ⟨m, _, rfl⟩
        simp at hcode
      · rw [hd', harith]
    · exact absurd (rickRollDiags_code h) (by omega)

/-- C6 witness: the last line xyz of the document import, abc, xyz lacks the word
return, as shown by applying the return rule to the diagnostic the code emits there. -/
theorem c6_witness : ¬ ContainsWordCI returnWord ("xyz".data) :=
  (c6_return_rule [] ("import\nabc\nxyz".data) ("import".data) ("xyz".data)
    ["abc".data, "xyz".data] (by decide) (by decide)).1.mp (by decide)

/-! The code-4 diagnostics of one internal line, extracted from the whole output. -/

lemma loopDiags_line_lb {d : Diagnostic} {ls : List (List Char)} {ln : Nat}
    (h : d ∈ loopDiags ln ls) : ln ≤ d.range.start.line := by
  rcases loopDiags_mem ls ln h with ⟨k, lk, _, _, hs⟩ | ⟨lst, _, _, rfl⟩
  · rcases mem_semicolonDiags.mp hs with ⟨m, _, rfl⟩
    simp
  · simp

lemma loopDiags_filter4 :
    ∀ (ls : List (List Char)) (ln0 k : Nat) (l : List Char),
      ls[k]? = some l → k + 1 < ls.length →
      (loopDiags ln0 ls).filter (fun d => d.code == 4 && d.range.start.line == ln0 + k)
        = (sentenceMatches l).map (fun m => make_semicolon_diagnostic (ln0 + k) (m.2 - 2)) := by
  intro ls
  induction ls with
  | nil => intro ln0 k l hk hb; simp at hk
  | cons l0 ls ih =>
    intro ln0 k l hk hb
    have hne : ls ≠ [] := by
      intro h; subst h; simp at hb
    rw [loopDiags_cons, if_neg (by simpa [List.isEmpty_iff] using hne)]
    rw [List.filter_append]
    cases k with
    | zero =>
      have hl : l0 = l := by simpa using hk
      subst hl
      have hfirst : (semicolonDiags ln0 l0).filter
          (fun d => d.code == 4 && d.range.start.line == ln0 + 0) = semicolonDiags ln0 l0 := by
        rw [List.filter_eq_self]
        intro d hd
        rcases mem_semicolonDiags.mp hd with ⟨m, _, rfl⟩
        simp
      have hsecond : (loopDiags (ln0 + 1) ls).filter
          (fun d => d.code == 4 && d.range.start.line == ln0 + 0) = [] := by
        rw [List.filter_eq_nil_iff]
        intro d hd
        have := loopDiags_line_lb hd
        simp only [Bool.and_eq_true, beq_iff_eq, not_and]
        intro _
        omega
      rw [hfirst, hsecond, List.append_nil]
      rfl
    | succ k' =>
      have hk' : ls[k']? = some l := by simpa using hk
      have hb' : k' + 1 < ls.length := by
        simp only [List.length_cons] at hb
        omega
      have hfirst : (semicolonDiags ln0 l0).filter
          (fun d => d.code == 4 && d.range.start.line == ln0 + (k' + 1)) = [] := by
        rw [List.filter_eq_nil_iff]
        intro d hd
        rcases mem_semicolonDiags.mp hd with ⟨m, _, rfl⟩
        simp only [Bool.and_eq_true, beq_iff_eq, not_and, make_semicolon_line]
        intro _
        omega
      rw [hfirst, List.nil_append]
      have harith : ln0 + (k' + 1) = (ln0 + 1) + k' := by omega
      rw [harith]
      exact ih (ln0 + 1) k' l hk' hb'

lemma compute_filter4 (sigma : List (List Char)) (content first l : List Char)
    (rest : List (List Char)) (k : Nat) (h1 : rustLines content = first :: rest)
    (h2 : rest[k]? = some l) (h3 : k + 1 < rest.length) :
    (compute_diagnostics sigma content).filter
        (fun d => d.code == 4 && d.range.start.line == k + 1)
      = (sentenceMatches l).map (fun m => make_semicolon_diagnostic (k + 1) (m.2 - 2)) := by
  rw [compute_eq sigma content first rest h1]
  rw [List.filter_append, List.filter_append, List.filter_append]
  have z1 : (if importMatch first then ([] : List Diagnostic)
      else [make_import_diagnostic]).filter
        (fun d => d.code == 4 && d.range.start.line == k + 1) = [] := by
    split_ifs <;> simp
  have z2 : (if rest.isEmpty then [make_return_diagnostic 0]
      else ([] : List Diagnostic)).filter
        (fun d => d.code == 4 && d.range.start.line == k + 1) = [] := by
    split_ifs <;> simp
  have z4 : (rickRollDiags (collectLinks 1 rest []) sigma).filter
      (fun d => d.code == 4 && d.range.start.line == k + 1) = [] := by
    rw [List.filter_eq_nil_iff]
    intro d hd
    have := rickRollDiags_code hd
    simp [this]
  have hmid := loopDiags_filter4 rest 1 k l h2 h3
  simp only [show (1 : Nat) + k = k + 1 from by omega] at hmid
  rw [z1, z2, z4, hmid, List.nil_append, List.nil_append, List.append_nil]

/-- C7: for an internal line (neither first nor last) of a document, the code-4
diagnostics located on that line are exactly one diagnostic per non-overlapping match
of the sentence-termination pattern, in scan order, each at character offset
(match end - 2). -/
theorem c7_semicolon_rule (sigma : List (List Char)) (content first l : List Char)
    (rest : List (List Char)) (k : Nat) (h1 : rustLines content = first :: rest)
    (h2 : rest[k]? = some l) (h3 : k + 1 < rest.length) :
    (compute_diagnostics sigma content).filter
        (fun d => d.code == 4 && d.range.start.line == k + 1)
      = (sentenceMatches l).map (fun m => make_semicolon_diagnostic (k + 1) (m.2 - 2)) :=
  compute_filter4 sigma content first l rest k h1 h2 h3

/-- C7 witness: the internal line Hello there. More words yields exactly two code-4
diagnostics, at offsets 11 and 21, while the internal line Hello there; yields none. -/
theorem c7_witness :
    (compute_diagnostics [] ("import\nHello there. More words\nreturn".data)).filter
        (fun d => d.code == 4 && d.range.start.line == 0 + 1)
      = [make_semicolon_diagnostic (0 + 1) 11, make_semicolon_diagnostic (0 + 1) 21] ∧
    (compute_diagnostics [] ("import\nHello there;\nreturn".data)).filter
        (fun d => d.code == 4 && d.range.start.line == 0 + 1) = [] :=
  ⟨(c7_semicolon_rule [] ("import\nHello there. More words\nreturn".data) ("import".data)
      ("Hello there. More words".data) ["Hello there. More words".data, "return".data] 0
      (by decide) (by decide) (by decide)).trans (by decide),
   (c7_semicolon_rule [] ("import\nHello there;\nreturn".data) ("import".data)
      ("Hello there;".data) ["Hello there;".data, "return".data] 0
      (by decide) (by decide) (by decide)).trans (by decide)⟩

/-- C10: every match of the sentence-termination pattern has end offset at least 2 (so
the character-offset computation end - 2 of the code cannot underflow) and at most the
line length; consequently an internal line that is empty or one character long yields
no code-4 diagnostic. -/
theorem c10_no_underflow (sigma : List (List Char)) (content first l : List Char)
    (rest : List (List Char)) (k : Nat) (h1 : rustLines content = first :: rest)
    (h2 : rest[k]? = some l) (h3 : k + 1 < rest.length) :
    (∀ m ∈ sentenceMatches l, 2 ≤ m.2 ∧ m.2 ≤ l.length) ∧
    (l.length ≤ 1 →
      (compute_diagnostics sigma content).filter
        (fun d => d.code == 4 && d.range.start.line == k + 1) = []) := by
  refine ⟨fun m hm => sentenceMatches_bounds hm, fun hshort => ?_⟩
  rw [compute_filter4 sigma content first l rest k h1 h2 h3, sentenceMatches_short hshort]
  rfl

/-- C10 witness: the one-character internal line A of the document import, A, return
yields no code-4 diagnostic. -/
theorem c10_witness :
    (compute_diagnostics [] ("import\nA\nreturn".data)).filter
      (fun d => d.code == 4 && d.range.start.line == 0 + 1) = [] :=
  (c10_no_underflow [] ("import\nA\nreturn".data) ("import".data) ("A".data)
    ["A".data, "return".data] 0 (by decide) (by decide) (by decide)).2 (by decide)

/-! Structure of the collected link occurrences. -/

lemma linkScanFrom_col {l : List Char} :
    ∀ (fuel i : Nat) (m : List Char × List Char × Nat), m ∈ linkScanFrom l i fuel →
      m.2.2 < l.length := by
  intro fuel
  induction fuel with
  | zero => intro i m hm; simp [linkScanFrom] at hm
  | succ n ih =>
    intro i m hm
    unfold linkScanFrom at hm
    split at hm
    · cases hma : linkMatchAt l i with
      | some mm =>
        rw [hma] at hm
        rcases List.mem_cons.mp hm with rfl | h
        · assumption
        · exact ih mm.2.2 m h
      | none =>
        rw [hma] at hm
        exact ih (i + 1) m hm
    · simp at hm

lemma lineLinks_col {l : List Char} {m : List Char × List Char × Nat}
    (h : m ∈ lineLinks l) : m.2.2 < l.length :=
  linkScanFrom_col (l.length + 1) 0 m h

lemma insertLink_occ :
    ∀ (gs : LinkGroups) (a : List Char) (o : LinkOcc) (g : List Char × List LinkOcc),
      g ∈ insertLink gs a o → ∀ o' ∈ g.2, (∃ g' ∈ gs, o' ∈ g'.2) ∨ o' = o := by
  intro gs
  induction gs with
  | nil =>
    intro a o g hg o' ho'
    simp only [insertLink, List.mem_singleton] at hg
    subst hg
    simp only [List.mem_singleton] at ho'
    exact Or.inr ho'
  | cons p gs ih =>
    rcases p with ⟨pk, pv⟩
    intro a o g hg o' ho'
    rw [insertLink] at hg
    split_ifs at hg with he
    · rcases List.mem_cons.mp hg with rfl | hg'
      · rcases List.mem_append.mp ho' with hin | hin
        · exact Or.inl ⟨(pk, pv), List.mem_cons_self _ _, hin⟩
        · exact Or.inr (by simpa using hin)
      · exact Or.inl ⟨g, List.mem_cons_of_mem _ hg', ho'⟩
    · rcases List.mem_cons.mp hg with rfl | hg'
      · exact Or.inl ⟨(pk, pv), List.mem_cons_self _ _, ho'⟩
      · rcases ih a o g hg' o' ho' with ⟨g', hg'', ho''⟩ | hh
        · exact Or.inl ⟨g', List.mem_cons_of_mem _ hg'', ho''⟩
        · exact Or.inr hh

lemma foldl_insert_occ :
    ∀ (ms : List (List Char × List Char × Nat)) (acc : LinkGroups) (ln : Nat)
      (g : List Char × List LinkOcc),
      g ∈ ms.foldl (fun gr m => insertLink gr m.1 (m.2.1, ln, m.2.2)) acc →
      ∀ o' ∈ g.2, (∃ g' ∈ acc, o' ∈ g'.2) ∨ ∃ m ∈ ms, o' = (m.2.1, ln, m.2.2) := by
  intro ms
  induction ms with
  | nil =>
    intro acc ln g hg o' ho'
    exact Or.inl ⟨g, hg, ho'⟩
  | cons m ms ih =>
    intro acc ln g hg o' ho'
    rcases ih _ ln g hg o' ho' with ⟨g', hg', ho''⟩ | ⟨m', hm', rfl⟩
    · rcases insertLink_occ _ _ _ _ hg' o' ho'' with ⟨g'', h1, h2⟩ | hh
      · exact Or.inl ⟨g'', h1, h2⟩
      · exact Or.inr ⟨m, List.mem_cons_self _ _, hh⟩
    · exact Or.inr ⟨m', List.mem_cons_of_mem _ hm', rfl⟩

lemma collectLinks_occ :
    ∀ (ls : List (List Char)) (ln : Nat) (acc : LinkGroups) (g : List Char × List LinkOcc),
      g ∈ collectLinks ln ls acc → ∀ o' ∈ g.2,
      (∃ g' ∈ acc, o' ∈ g'.2) ∨
      ∃ k lk m, ls[k]? = some lk ∧ m ∈ lineLinks lk ∧ o' = (m.2.1, ln + k, m.2.2) := by
  intro ls
  induction ls with
  | nil =>
    intro ln acc g hg o' ho'
    exact Or.inl ⟨g, hg, ho'⟩
  | cons l ls ih =>
    intro ln acc g hg o' ho'
    rw [collectLinks] at hg
    rcases ih (ln + 1) _ g hg o' ho' with ⟨g', hg', ho''⟩ | ⟨k, lk, m, hk, hm, rfl⟩
    · rcases foldl_insert_occ (lineLinks l) acc ln g' hg' o' ho'' with ⟨g'', h1, h2⟩ |
        ⟨m, hm, rfl⟩
      · exact Or.inl ⟨g'', h1, h2⟩
      · exact Or.inr ⟨0, l, m, by simp, hm, by rw [Nat.add_zero]⟩
    · refine Or.inr ⟨k + 1, lk, m, by simpa using hk, hm, ?_⟩
      rw [show ln + (k + 1) = ln + 1 + k from by omega]

lemma insertLink_keys (gs : LinkGroups) (a : List Char) (o : LinkOcc) :
    (insertLink gs a o).map Prod.fst =
      if a ∈ gs.map Prod.fst then gs.map Prod.fst else gs.map Prod.fst ++ [a] := by
  induction gs with
  | nil => simp [insertLink]
  | cons p gs ih =>
    rcases p with ⟨pk, pv⟩
    by_cases he : pk = a
    · subst he
      rw [insertLink, if_pos rfl]
      rw [if_pos (show pk ∈ List.map Prod.fst ((pk, pv) :: gs) by simp)]
      simp
    · rw [insertLink, if_neg he]
      by_cases hm : a ∈ gs.map Prod.fst
      · rw [if_pos (by simp [hm])]
        simp [ih, hm]
      · rw [if_neg (by
          simp only [List.map_cons, List.mem_cons, not_or]
          exact ⟨fun h => he h.symm, hm⟩)]
        simp [ih, hm]

lemma insertLink_nodup {gs : LinkGroups} (a : List Char) (o : LinkOcc)
    (h : (gs.map Prod.fst).Nodup) : ((insertLink gs a o).map Prod.fst).Nodup := by
  rw [insertLink_keys]
  split_ifs with hm
  · exact h
  · simp [List.nodup_append, h, hm]

lemma foldl_insert_nodup :
    ∀ (ms : List (List Char × List Char × Nat)) (acc : LinkGroups) (ln : Nat),
      (acc.map Prod.fst).Nodup →
      (((ms.foldl (fun gr m => insertLink gr m.1 (m.2.1, ln, m.2.2)) acc)).map Prod.fst).Nodup := by
  intro ms
  induction ms with
  | nil => intro acc ln h; exact h
  | cons m ms ih =>
    intro acc ln h
    exact ih _ ln (insertLink_nodup m.1 (m.2.1, ln, m.2.2) h)

lemma collectLinks_nodup :
    ∀ (ls : List (List Char)) (ln : Nat) (acc : LinkGroups),
      (acc.map Prod.fst).Nodup → (((collectLinks ln ls acc)).map Prod.fst).Nodup := by
  intro ls
  induction ls with
  | nil => intro ln acc h; exact h
  | cons l ls ih =>
    intro ln acc h
    rw [collectLinks]
    exact ih (ln + 1) _ (foldl_insert_nodup (lineLinks l) acc ln h)

lemma lookupGroup_mem {g : LinkGroups} {k : List Char} {v : List LinkOcc}
    (h : lookupGroup g k = some v) : (k, v) ∈ g := by
  induction g with
  | nil => simp [lookupGroup] at h
  | cons p gs ih =>
    rcases p with ⟨pk, pv⟩
    simp only [lookupGroup] at h
    split_ifs at h with he
    · injection h with hh
      subst he
      subst hh
      exact List.mem_cons_self _ _
    · exact List.mem_cons_of_mem _ (ih h)

lemma mem_lookupGroup {g : LinkGroups} {k : List Char} {v : List LinkOcc}
    (hnd : (g.map Prod.fst).Nodup) (h : (k, v) ∈ g) : lookupGroup g k = some v := by
  induction g with
  | nil => simp at h
  | cons p gs ih =>
    rcases p with ⟨pk, pv⟩
    rcases List.mem_cons.mp h with heq | hmem
    · injection heq with h1 h2
      subst h1
      subst h2
      rw [lookupGroup, if_pos rfl]
    · rw [lookupGroup]
      split_ifs with he
      · exfalso
        simp only [List.map_cons, List.nodup_cons] at hnd
        subst he
        exact hnd.1 (List.mem_map_of_mem Prod.fst hmem)
      · simp only [List.map_cons, List.nodup_cons] at hnd
        exact ih hnd.2 hmem

/-- C1 (amended to the lines the code scans): for every valid key order and every
position, a code-5 diagnostic at (line, column) is in the output iff some anchor group
collected from the lines after the first holds an occurrence at that (line, column)
and no occurrence of that group targets the canonical rick-roll url.  In particular a
document whose scanned lines hold no links gets no code-5 diagnostic, and a group with
a canonical occurrence gets none. -/
theorem c1_rickroll_links_after_first_line (sigma : List (List Char)) (content : List Char)
    (h : ValidOrder sigma content) (ln col : Nat) :
    (∃ d ∈ compute_diagnostics sigma content, d.code = 5 ∧
        d.range.start.line = ln ∧ d.range.start.character = col) ↔
    (∃ a occs, (a, occs) ∈ linkGroups content ∧
        (∃ o ∈ occs, o.2.1 = ln ∧ o.2.2 = col) ∧
        ∀ o ∈ occs, o.1 ≠ rickRollUrl) := by
  cases hl : rustLines content with
  | nil =>
    have h0 : compute_diagnostics sigma content = [] := by
      unfold compute_diagnostics
      rw [hl]
    have h0' : linkGroups content = [] := by
      unfold linkGroups
      rw [hl]
    simp [h0, h0']
  | cons first rest =>
    have hmem := compute_mem_iff sigma content first rest hl
    have hLG := linkGroups_eq content first rest hl
    have hnd : ((collectLinks 1 rest []).map Prod.fst).Nodup :=
      collectLinks_nodup rest 1 [] (by simp)
    constructor
    · rintro ⟨d, hd, hcode, hline, hchar⟩
      rcases (hmem d).mp hd with h1 | h1 | h1 | h1
      · split_ifs at h1 with hm
        · simp at h1
        · simp only [List.mem_singleton] at h1
          rw [h1] at hcode
          simp at hcode
      · split_ifs at h1 with hm
        · simp only [List.mem_singleton] at h1
          rw [h1] at hcode
          simp at hcode
        · simp at h1
      · rcases loopDiags_code h1 with h3 | h3 <;> omega
      · rcases (mem_rickRollDiags sigma).mp h1 with ⟨kk, hk, occs, hlook, hgd⟩
        rcases mem_groupDiags.mp hgd with ⟨hany, o, ho, rfl⟩
        refine ⟨kk, occs, ?_, ⟨o, ho, ?_, ?_⟩, ?_⟩
        · rw [hLG]
          exact lookupGroup_mem hlook
        · simpa using hline
        · simpa using hchar
        · intro o' ho'
          have := List.any_eq_false.mp hany o' ho'
          simpa using this
    · rintro ⟨a, occs, hmem2, ⟨o, ho, h21, h22⟩, hnc⟩
      rw [hLG] at hmem2
      have hlook : lookupGroup (collectLinks 1 rest []) a = some occs :=
        mem_lookupGroup hnd hmem2
      have hka : a ∈ sigma := by
        have hks : a ∈ (linkGroups content).map Prod.fst := by
          rw [hLG]
          exact List.mem_map_of_mem Prod.fst hmem2
        exact h.mem_iff.mpr hks
      have hany : occs.any (fun o => o.1 == rickRollUrl) = false := by
        rw [List.any_eq_false]
        intro o' ho'
        simpa using hnc o' ho'
      refine ⟨make_link_rick_roll_diagnostic o.2.1 o.2.2,
        (hmem _).mpr (Or.inr (Or.inr (Or.inr ?_))), rfl, by simpa using h21,
        by simpa using h22⟩
      rw [mem_rickRollDiags]
      exact ⟨a, hka, occs, hlook, mem_groupDiags.mpr ⟨hany, o, ho, rfl⟩⟩

/-- C1 witness: on the document import, see [x](https://a.com), return with the one-key
order, the emitted code-5 diagnostic at (1, 4) certifies that the collected group of
anchor x holds the occurrence at (1, 4) and no canonical url. -/
theorem c1_witness :
    ∃ a occs, (a, occs) ∈ linkGroups ("import\nsee [x](https://a.com)\nreturn".data) ∧
      (∃ o ∈ occs, o.2.1 = 1 ∧ o.2.2 = 4) ∧ ∀ o ∈ occs, o.1 ≠ rickRollUrl :=
  (c1_rickroll_links_after_first_line ["x".data]
    ("import\nsee [x](https://a.com)\nreturn".data) (by decide) 1 4).mp (by decide)

/-- Well-formedness of one emitted diagnostic, as claim C9 states it: a point range,
severity Error, one of the four fixed code and message pairs, and a position whose
line indexes a line of the document and whose column is at most that line's length. -/
def DiagWF (content : List Char) (d : Diagnostic) : Prop :=
  d.range.start = d.range.stop ∧
  d.severity = 1 ∧
  ((d.code = 2 ∧
      d.message = "All posts and comments should start with an \"import\" declaration.") ∨
   (d.code = 3 ∧ d.message = "All comments must return a value") ∨
   (d.code = 4 ∧ d.message = "For comments, every sentence must end with a semicolon") ∨
   (d.code = 5 ∧
      d.message = "Every post linking to something must contain a second, identical-looking link to a rick-roll")) ∧
  ∃ l, (rustLines content)[d.range.start.line]? = some l ∧
    d.range.start.character ≤ l.length

/-- C9: every diagnostic the engine emits is well formed: point range, severity Error,
a code in 2..5 paired with its fixed message, a line index inside the document and a
column index at most the length of that line. -/
theorem c9_diagnostic_invariants (sigma : List (List Char)) (content : List Char)
    (d : Diagnostic) (hd : d ∈ compute_diagnostics sigma content) : DiagWF content d := by
  cases hl : rustLines content with
  | nil =>
    have h0 : compute_diagnostics sigma content = [] := by
      unfold compute_diagnostics
      rw [hl]
    rw [h0] at hd
    simp at hd
  | cons first rest =>
    rcases (compute_mem_iff sigma content first rest hl d).mp hd with h | h | h | h
    · split_ifs at h with hm
      · simp at h
      · simp only [List.mem_singleton] at h
        subst h
        exact ⟨rfl, rfl, Or.inl ⟨rfl, rfl⟩, first, by rw [hl]; simp, Nat.zero_le _⟩
    · split_ifs at h with hm
      · simp only [List.mem_singleton] at h
        subst h
        exact ⟨rfl, rfl, Or.inr (Or.inl ⟨rfl, rfl⟩), first, by rw [hl]; simp, Nat.zero_le _⟩
      · simp at h
    · rcases loopDiags_mem rest 1 h with ⟨k, lk, hk, hb, hsemi⟩ | ⟨lst, hlst, _, rfl⟩
      · rcases mem_semicolonDiags.mp hsemi with ⟨m, hm, rfl⟩
        obtain ⟨hm2, hmle⟩ := sentenceMatches_bounds hm
        refine ⟨rfl, rfl, Or.inr (Or.inr (Or.inl ⟨rfl, rfl⟩)), lk, ?_, ?_⟩
        · rw [hl]
          simp only [make_semicolon_line]
          rw [show 1 + k = k + 1 from by omega, List.getElem?_cons_succ]
          exact hk
        · show m.2 - 2 ≤ lk.length
          omega
      · have hne : rest ≠ [] := by
          intro hh
          rw [hh] at hlst
          simp at hlst
        have hlen : rest.length ≥ 1 := List.length_pos.mpr hne
        refine ⟨rfl, rfl, Or.inr (Or.inl ⟨rfl, rfl⟩), lst, ?_, Nat.zero_le _⟩
        rw [hl]
        simp only [make_return_line]
        rw [show 1 + (rest.length - 1) = (rest.length - 1) + 1 from by omega,
          List.getElem?_cons_succ]
        rw [List.getLast?_eq_getElem?] at hlst
        exact hlst
    · rcases (mem_rickRollDiags sigma).mp h with ⟨kk, _, occs, hlook, hgd⟩
      rcases mem_groupDiags.mp hgd with ⟨_, o, ho, rfl⟩
      have hgmem : (kk, occs) ∈ collectLinks 1 rest [] := lookupGroup_mem hlook
      rcases collectLinks_occ rest 1 [] (kk, occs) hgmem o ho with ⟨g', hg', _⟩ |
        ⟨k, lk, m, hk, hm, ho'⟩
      · simp at hg'
      · have hcol := lineLinks_col hm
        have h21 : o.2.1 = 1 + k := by rw [ho']
        have h22 : o.2.2 = m.2.2 := by rw [ho']
        refine ⟨rfl, rfl, Or.inr (Or.inr (Or.inr ⟨rfl, rfl⟩)), lk, ?_, ?_⟩
        · rw [hl]
          simp only [make_link_line]
          rw [h21, show 1 + k = k + 1 from by omega, List.getElem?_cons_succ]
          exact hk
        · show o.2.2 ≤ lk.length
          omega

/-- C9 witness: the import diagnostic emitted on the single-line document hello is well
formed. -/
theorem c9_witness : DiagWF ("hello".data) make_import_diagnostic :=
  c9_diagnostic_invariants [] ("hello".data) make_import_diagnostic (by decide)

end PHLsp
